import Mathlib

/-!
Verification development for the emergency-vehicle-detection pipeline
(`Paper-3/em_detection.py`).

The temporal-decision core is embedded over `ℚ`: per-frame classifier
probabilities enter as a list of rationals (the neural-network scorer is an
external collaborator, so its outputs are the inputs of the embedded
functions), and the window mean / threshold comparisons of the source are
exact rational arithmetic, which keeps the `0.5` tie-break decidable.

The signal-conditioning stage (`butter_bandpass_filter`, `preprocess`) is
embedded over `ℝ`/`ℂ`: the recursive difference equation of `lfilter` and
the FFT-based analytic signal of `hilbert` are written out mathematically,
with the numeric filter coefficients designed by `scipy.signal.butter`
entering as parameters.
-/

namespace EmDetection

/-- Window size of the temporal smoother, `N = 10` in `predict_probability`. -/
def N : ℕ := 10

/-- Decision threshold, `th = 0.5` in `predict_probability`. -/
def th : ℚ := 1/2

/-- Mean of a list of rationals, as computed by `np.mean(prob_list)`.
For the empty list this is `0/0 = 0` under Lean's division convention. -/
def listMean (l : List ℚ) : ℚ := l.sum / l.length

/-- The per-window classification of `predict_probability`:
`if prob > th: class_list.append(1) else: class_list.append(0)`. -/
def emLabel (prob : ℚ) : ℕ := if th < prob then 1 else 0

/-- The second loop of `predict_probability` (`for i in range(N, len(mfccs_list))`):
on each remaining score the window drops its oldest entry (`prob_list.pop(0)`),
appends the new score, and a classification of the new window mean is emitted. -/
def slideLoop : List ℚ → List ℚ → List ℕ
  | _, [] => []
  | w, p :: rest =>
      emLabel (listMean (w.tail ++ [p])) :: slideLoop (w.tail ++ [p]) rest

/-- Embedding of `predict_probability` given the per-frame scorer outputs
`probs` (one probability per feature vector in `mfccs_list`).  The source
unconditionally indexes `mfccs_list[i]` for `i < N`, so a clip with fewer
than `N` frames raises `IndexError`; that failure is modelled as `none`.
Otherwise the first `N` scores fill the window and yield one classification,
and `slideLoop` processes the remaining scores. -/
def predict_probability (probs : List ℚ) : Option (List ℕ) :=
  if probs.length < N then none
  else
    some (emLabel (listMean (probs.take N)) :: slideLoop (probs.take N) (probs.drop N))

/-- Mean of a list of binary labels, as computed by `np.mean(class_list)`. -/
def natMean (l : List ℕ) : ℚ := (l.sum : ℚ) / l.length

/-- The clip-level aggregation of `predict_output`:
`1` when `np.mean(class_list) > 0.5`, else `0`. -/
def aggregate (ds : List ℕ) : ℕ := if (1/2 : ℚ) < natMean ds then 1 else 0

/-- Embedding of `predict_output`: the running decisions of
`predict_probability` reduced to one clip-level label.  When
`predict_probability` fails (short clip), the failure propagates. -/
def predict_output (probs : List ℚ) : Option ℕ :=
  (predict_probability probs).map aggregate

/-- One push of the temporal smoother, read off the loop structure of
`predict_probability`: while the window holds fewer than `N` scores the new
score is appended (the filling loop `for i in range(N)`), otherwise the
oldest entry is evicted first (`prob_list.pop(0)` then `append`); a running
decision is emitted exactly when the resulting window is full. -/
def smootherPush (w : List ℚ) (p : ℚ) : List ℚ × Option ℕ :=
  let w2 := if w.length < N then w ++ [p] else w.tail ++ [p]
  (w2, if w2.length < N then none else some (emLabel (listMean w2)))

/-- Fold step threading the smoother state and accumulating emitted decisions. -/
def smootherStep (acc : List ℚ × List ℕ) (p : ℚ) : List ℚ × List ℕ :=
  ((smootherPush acc.1 p).1, acc.2 ++ (smootherPush acc.1 p).2.toList)

/-- Push a whole score sequence through the smoother, starting from an empty
window; returns the final window and the emitted running decisions. -/
def smootherRun (probs : List ℚ) : List ℚ × List ℕ :=
  probs.foldl smootherStep ([], [])

/-- Window evolution of the steady phase alone (no decisions collected). -/
def slideWindow : List ℚ → List ℚ → List ℚ
  | w, [] => w
  | w, p :: rest => slideWindow (w.tail ++ [p]) rest

/-- The probability script of the end-to-end smoothing scenario:
ten scores of `0.9` followed by ten scores of `0.1`. -/
def c7input : List ℚ := List.replicate 10 (9/10) ++ List.replicate 10 (1/10)

lemma emLabel_cases (p : ℚ) : emLabel p = 0 ∨ emLabel p = 1 := by
  unfold emLabel
  split <;> simp

lemma emLabel_eq_one_iff (p : ℚ) : emLabel p = 1 ↔ th < p := by
  unfold emLabel
  split <;> simp_all

lemma slideLoop_length (l : List ℚ) : ∀ w : List ℚ, (slideLoop w l).length = l.length := by
  induction l with
  | nil => intro w; rfl
  | cons p rest ih => intro w; simp [slideLoop, ih]

lemma slideLoop_mem (l : List ℚ) :
    ∀ (w : List ℚ) (d : ℕ), d ∈ slideLoop w l → d = 0 ∨ d = 1 := by
  induction l with
  | nil => intro w d hd; simp [slideLoop] at hd
  | cons p rest ih =>
      intro w d hd
      simp only [slideLoop, List.mem_cons] at hd
      rcases hd with hd | hd
      · subst hd; exact emLabel_cases _
      · exact ih _ _ hd

lemma foldl_filling (ps : List ℚ) : ∀ (w : List ℚ) (ds : List ℕ),
    w.length + ps.length < N →
    ps.foldl smootherStep (w, ds) = (w ++ ps, ds) := by
  induction ps with
  | nil => intro w ds _; simp
  | cons p rest ih =>
      intro w ds h
      simp only [List.length_cons] at h
      have h1 : w.length < N := by omega
      have h2 : w.length + 1 < N := by omega
      simp only [List.foldl_cons]
      have hstep : smootherStep (w, ds) p = (w ++ [p], ds) := by
        simp [smootherStep, smootherPush, h1, h2]
      rw [hstep, ih _ _ (by simp; omega)]
      simp

lemma foldl_fill_exact (ps : List ℚ) : ∀ (w : List ℚ) (ds : List ℕ),
    ps ≠ [] → w.length + ps.length = N →
    ps.foldl smootherStep (w, ds)
      = (w ++ ps, ds ++ [emLabel (listMean (w ++ ps))]) := by
  induction ps with
  | nil => intro w ds hne _; exact absurd rfl hne
  | cons p rest ih =>
      intro w ds _ hlen
      simp only [List.length_cons] at hlen
      by_cases hrest : rest = []
      · subst hrest
        simp only [List.length_nil] at hlen
        have h1 : w.length < N := by omega
        have h2 : ¬ w.length + 1 < N := by omega
        simp only [List.foldl_cons, List.foldl_nil]
        simp [smootherStep, smootherPush, h1, h2]
      · have hrpos : 0 < rest.length := List.length_pos.mpr hrest
        have h1 : w.length < N := by omega
        have h2 : w.length + 1 < N := by omega
        simp only [List.foldl_cons]
        have hstep : smootherStep (w, ds) p = (w ++ [p], ds) := by
          simp [smootherStep, smootherPush, h1, h2]
        rw [hstep, ih _ _ hrest (by simp; omega)]
        simp

lemma foldl_steady (rest : List ℚ) : ∀ (w : List ℚ) (ds : List ℕ),
    w.length = N →
    rest.foldl smootherStep (w, ds)
      = (slideWindow w rest, ds ++ slideLoop w rest) := by
  induction rest with
  | nil => intro w ds _; simp [slideWindow, slideLoop]
  | cons p r ih =>
      intro w ds hw
      have hN : N = 10 := rfl
      have h1 : ¬ w.length < N := by omega
      have hw2 : (w.tail ++ [p]).length = N := by
        simp [List.length_tail]
        omega
      have h2 : ¬ w.length - 1 + 1 < N := by omega
      simp only [List.foldl_cons]
      have hstep : smootherStep (w, ds) p
          = (w.tail ++ [p], ds ++ [emLabel (listMean (w.tail ++ [p]))]) := by
        simp [smootherStep, smootherPush, h1, h2]
      rw [hstep, ih _ _ hw2]
      simp [slideWindow, slideLoop]

lemma slideWindow_length (l : List ℚ) :
    ∀ w : List ℚ, w.length = N → (slideWindow w l).length = N := by
  induction l with
  | nil => intro w hw; simpa [slideWindow] using hw
  | cons p r ih =>
      intro w hw
      have hN : N = 10 := rfl
      have hw2 : (w.tail ++ [p]).length = N := by
        simp [List.length_tail]
        omega
      simp only [slideWindow]
      exact ih _ hw2

lemma smootherRun_split (probs : List ℚ) (h : N ≤ probs.length) :
    smootherRun probs
      = (slideWindow (probs.take N) (probs.drop N),
         emLabel (listMean (probs.take N)) :: slideLoop (probs.take N) (probs.drop N)) := by
  have hN : N = 10 := rfl
  have htake : (probs.take N).length = N := by
    simp [List.length_take]
    omega
  have hne : probs.take N ≠ [] := by
    intro hnil
    rw [hnil] at htake
    simp at htake
    omega
  have hfold :
      smootherRun probs
        = (probs.drop N).foldl smootherStep ((probs.take N).foldl smootherStep ([], [])) := by
    rw [smootherRun]
    conv_lhs => rw [← List.take_append_drop N probs]
    rw [List.foldl_append]
  rw [hfold, foldl_fill_exact _ _ _ hne (by simpa using htake)]
  rw [foldl_steady _ _ _ (by simpa using htake)]
  simp

lemma smootherRun_window_le (probs : List ℚ) : (smootherRun probs).1.length ≤ N := by
  by_cases h : probs.length < N
  · rw [smootherRun, foldl_filling _ _ _ (by simpa using h)]
    simpa using Nat.le_of_lt h
  · push_neg at h
    rw [smootherRun_split probs h]
    have htake : (probs.take N).length = N := by
      simp [List.length_take]
      omega
    exact le_of_eq (slideWindow_length _ _ htake)

lemma predict_probability_eq_smootherRun (probs : List ℚ) (h : N ≤ probs.length) :
    predict_probability probs = some ((smootherRun probs).2) := by
  rw [smootherRun_split probs h, predict_probability, if_neg (by omega)]

/-- One output sample of the causal IIR difference equation applied by
`scipy.signal.lfilter`:
`a[0] * y[n] = (sum over k) b[k] * x[n-k] - (sum over k >= 1) a[k] * y[n-k]`,
with `ys` the previously computed outputs.  Division by `a.getD 0 0` follows
the Lean convention that division by zero is zero. -/
noncomputable def lfilterNext (b a x ys : List ℝ) (n : ℕ) : ℝ :=
  (((List.range b.length).map
      (fun k => if k ≤ n then b.getD k 0 * x.getD (n - k) 0 else 0)).sum
    - ((List.range a.length).map
      (fun k => if 1 ≤ k ∧ k ≤ n then a.getD k 0 * ys.getD (n - k) 0 else 0)).sum)
    / a.getD 0 0

/-- First `n` output samples of the recursive filter. -/
noncomputable def lfilterAux (b a x : List ℝ) : ℕ → List ℝ
  | 0 => []
  | n + 1 => lfilterAux b a x n ++ [lfilterNext b a x (lfilterAux b a x n) n]

/-- Embedding of `scipy.signal.lfilter(b, a, x)`: one output per input sample,
computed causally by the difference equation. -/
noncomputable def lfilter (b a x : List ℝ) : List ℝ := lfilterAux b a x x.length

/-- Embedding of `butter_bandpass_filter`: the source designs the
coefficients `(b, a)` with `scipy.signal.butter(order, [low/nyq, high/nyq],
btype='band')` — an external floating-point design routine — and then runs
`lfilter(b, a, data)`.  The designed coefficients therefore enter as
parameters and the function is the filtering step. -/
noncomputable def butter_bandpass_filter (b a data : List ℝ) : List ℝ :=
  lfilter b a data

/-- Discrete Fourier transform coefficient `k` of a finite complex signal. -/
noncomputable def dft (x : List ℂ) (k : ℕ) : ℂ :=
  ((List.range x.length).map (fun j =>
    x.getD j 0
      * Complex.exp (-(2 * (Real.pi : ℂ) * Complex.I * (j : ℂ) * (k : ℂ))
          / (x.length : ℂ)))).sum

/-- Frequency-domain mask of `scipy.signal.hilbert`: weight `1` on the DC
bin (and the Nyquist bin when the length is even), `2` on the positive
frequencies, `0` on the negative frequencies. -/
def hilbertMask (len k : ℕ) : ℂ :=
  if k = 0 then 1
  else if 2 * k < len then 2
  else if 2 * k = len then 1
  else 0

/-- Embedding of `scipy.signal.hilbert(x)`: the analytic signal, obtained by
the inverse DFT of the masked DFT of the input.  On an input with no samples
scipy raises `ValueError` (`N must be positive`) — the spec's `EmptySignal`
failure — modelled as `none`. -/
noncomputable def hilbert (x : List ℝ) : Option (List ℂ) :=
  if x.length = 0 then none
  else
    some ((List.range x.length).map (fun (n : ℕ) =>
      (((List.range x.length).map (fun k =>
          hilbertMask x.length k * dft (x.map Complex.ofReal) k
            * Complex.exp (2 * (Real.pi : ℂ) * Complex.I * (n : ℂ) * (k : ℂ)
                / (x.length : ℂ)))).sum)
        / (x.length : ℂ)))

/-- Embedding of `preprocess`: band-pass filter the signal, take the
analytic signal, and return its magnitude (`np.abs(analytic_signal)`), the
amplitude envelope.  The failure of the analytic-signal transform on an
empty signal propagates. -/
noncomputable def preprocess (b a : List ℝ) (y : List ℝ) : Option (List ℝ) :=
  (hilbert (butter_bandpass_filter b a y)).map (fun l =>
    l.map (fun z => Complex.abs z))

lemma lfilterAux_length (b a x : List ℝ) : ∀ n : ℕ, (lfilterAux b a x n).length = n := by
  intro n
  induction n with
  | zero => rfl
  | succ n ih => simp [lfilterAux, ih]

lemma abs_map_getD_nonneg (l : List ℂ) (i : ℕ) :
    0 ≤ (l.map (fun z => Complex.abs z)).getD i 0 := by
  cases hv : (l.map (fun z => Complex.abs z)).get? i with
  | none => simp [List.getD, ← List.get?_eq_getElem?, hv]
  | some v =>
      have hmem : v ∈ l.map (fun z => Complex.abs z) := List.get?_mem hv
      obtain ⟨z, _, rfl⟩ := List.mem_map.mp hmem
      simp only [List.getD, ← List.get?_eq_getElem?, hv, Option.getD_some]
      exact Complex.abs.nonneg z

/-- Error kinds of the framing stage. -/
inductive PipelineError where
  | ClipTooShort

/-- Frame-slicing loop: starting at sample `pos`, emit the frame of `F`
samples at `pos` and advance by the hop `H` while a full frame still fits;
the trailing partial frame is dropped.  The `fuel` argument bounds the
iteration count for termination and is chosen large enough in `stFrames`. -/
def frameLoop (env : List ℝ) (F H : ℕ) : ℕ → ℕ → List (List ℝ)
  | 0, _ => []
  | fuel + 1, pos =>
      if pos + F ≤ env.length then
        (env.drop pos).take F :: frameLoop env F H fuel (pos + H)
      else []

/-- All full frames of the envelope, from position `0`. -/
def stFrames (env : List ℝ) (F H : ℕ) : List (List ℝ) :=
  frameLoop env F H (env.length + 1) 0

/-- Modelled from the spec: the framing implementation itself lives in the
external `pyAudioAnalysis` call
`audioFeatureExtraction.stFeatureExtraction(y, sr, 0.10 * sr, 0.05 * sr)` of
`read_files` and is not part of this repository's source, so the framing
contract is taken from the spec — frames of `F` samples advance by a hop of
`H` samples while a full frame fits, the trailing partial frame is dropped
(not zero-padded), and an envelope shorter than one frame fails with
`ClipTooShort`. -/
def frameClip (env : List ℝ) (F H : ℕ) : Except PipelineError (List (List ℝ)) :=
  if env.length < F then Except.error PipelineError.ClipTooShort
  else Except.ok (stFrames env F H)

lemma frameLoop_stop (env : List ℝ) (F H fuel pos : ℕ)
    (h : ¬ pos + F ≤ env.length) : frameLoop env F H fuel pos = [] := by
  cases fuel with
  | zero => rfl
  | succ fuel => simp [frameLoop, h]

lemma frameLoop_length (env : List ℝ) (F H : ℕ) (hH : 1 ≤ H) :
    ∀ (fuel pos : ℕ), env.length + 1 ≤ fuel + pos → pos + F ≤ env.length →
      (frameLoop env F H fuel pos).length = (env.length - F - pos) / H + 1 := by
  intro fuel
  induction fuel with
  | zero =>
      intro pos hfuel hpos
      omega
  | succ fuel ih =>
      intro pos hfuel hpos
      simp only [frameLoop, if_pos hpos, List.length_cons]
      by_cases hnext : pos + H + F ≤ env.length
      · rw [ih (pos + H) (by omega) hnext]
        have hge : H ≤ env.length - F - pos := by omega
        rw [Nat.div_eq_sub_div hH hge]
        have hsub : env.length - F - (pos + H) = env.length - F - pos - H := by omega
        rw [hsub]
      · rw [frameLoop_stop env F H fuel (pos + H) (by omega)]
        have hlt : env.length - F - pos < H := by omega
        simp [Nat.div_eq_of_lt hlt]

lemma sum_eq_count_one (l : List ℕ) (h : ∀ d ∈ l, d = 0 ∨ d = 1) :
    l.sum = l.count 1 := by
  induction l with
  | nil => simp
  | cons d rest ih =>
      have hd := h d (by simp)
      have hrest : ∀ x ∈ rest, x = 0 ∨ x = 1 := fun x hx => h x (by simp [hx])
      rcases hd with h0 | h1
      · subst h0
        simp [List.count_cons, ih hrest]
      · subst h1
        simp [List.count_cons, ih hrest]
        omega

/-- C1: for every score sequence pushed into the temporal smoother with
window size `N = 10`, pushing fewer than `N` scores yields no running
decision, pushing exactly `N` scores yields exactly one, the probability
window never exceeds length `N` at any point, and once the window is full
every push evicts the oldest entry before appending (FIFO semantics). -/
theorem c1_temporal_smoother_invariants :
    (∀ probs : List ℚ, probs.length < N → (smootherRun probs).2 = [])
    ∧ (∀ probs : List ℚ, probs.length = N → (smootherRun probs).2.length = 1)
    ∧ (∀ (probs : List ℚ) (k : ℕ), (smootherRun (probs.take k)).1.length ≤ N)
    ∧ (∀ (w : List ℚ) (p : ℚ), w.length = N → (smootherPush w p).1 = w.tail ++ [p]) := by
  refine ⟨?_, ?_, ?_, ?_⟩
  · intro probs h
    rw [smootherRun, foldl_filling _ _ _ (by simpa using h)]
  · intro probs h
    rw [smootherRun_split probs (le_of_eq h.symm)]
    have hdrop : probs.drop N = [] := by
      apply List.length_eq_zero.mp
      simp [List.length_drop]
      omega
    simp [hdrop, slideLoop]
  · intro probs k
    exact smootherRun_window_le _
  · intro w p hw
    have h1 : ¬ w.length < N := by omega
    simp [smootherPush, h1]

theorem c1_witness :
    (smootherRun [(1/2 : ℚ)]).2 = []
    ∧ (smootherRun (List.replicate 10 (1/2 : ℚ))).2.length = 1 := by
  constructor
  · exact c1_temporal_smoother_invariants.1 _ (by norm_num [N])
  · exact c1_temporal_smoother_invariants.2.1 _ (by simp [N])

/-- C2: for a full window (length `N`), the running label is `1` exactly when
the window mean strictly exceeds `th = 0.5` (equivalently, the window sum
strictly exceeds `th * N`); a mean of exactly `th` classifies as `0`; in
particular pushing `N` scores of exactly `0.5` yields the single running
decision `0`. -/
theorem c2_tie_break_contract :
    (∀ w : List ℚ, w.length = N →
        ((emLabel (listMean w) = 1 ↔ th * (N : ℚ) < w.sum)
          ∧ (w.sum = th * (N : ℚ) → emLabel (listMean w) = 0)))
    ∧ predict_probability (List.replicate N th) = some [0] := by
  constructor
  · intro w hw
    have hNpos : (0 : ℚ) < (N : ℚ) := by norm_num [N]
    have hmean : listMean w = w.sum / (N : ℚ) := by
      rw [listMean, hw]
    constructor
    · rw [emLabel_eq_one_iff, hmean, lt_div_iff₀ hNpos]
    · intro hsum
      have hth : listMean w = th := by
        rw [hmean, hsum, mul_div_assoc, div_self (ne_of_gt hNpos), mul_one]
      rw [emLabel, hth]
      simp
  · norm_num [predict_probability, N, th, listMean, emLabel, slideLoop, List.replicate]

theorem c2_witness :
    emLabel (listMean (List.replicate N th)) = 0
    ∧ predict_probability (List.replicate N th) = some [0] := by
  constructor
  · refine (c2_tie_break_contract.1 _ (by simp)).2 ?_
    norm_num [List.sum_replicate, N, th]
  · exact c2_tie_break_contract.2

/-- C3: for every non-empty sequence of binary running decisions, the
clip-level aggregation returns `1` exactly when the mean of the labels
strictly exceeds `0.5` (equivalently, strictly more than half of the labels
are `1`), and a tie at exactly `0.5` resolves to `0`. -/
theorem c3_clip_aggregation (ds : List ℕ) (hne : ds ≠ [])
    (h01 : ∀ d ∈ ds, d = 0 ∨ d = 1) :
    (aggregate ds = 1 ↔ ds.length < 2 * ds.count 1)
    ∧ (2 * ds.count 1 = ds.length → aggregate ds = 0) := by
  have hpos : 0 < ds.length := List.length_pos.mpr hne
  have hlen : (0 : ℚ) < (ds.length : ℚ) := by exact_mod_cast hpos
  have hsum : ((ds.sum : ℚ)) = ((ds.count 1 : ℚ)) := by
    exact_mod_cast congrArg Nat.cast (sum_eq_count_one ds h01)
  have key : ((1 : ℚ)/2 < natMean ds) ↔ ds.length < 2 * ds.count 1 := by
    rw [natMean, hsum, lt_div_iff₀ hlen]
    constructor
    · intro h
      have h2 : ((ds.length : ℚ)) < 2 * ((ds.count 1 : ℚ)) := by linarith
      exact_mod_cast h2
    · intro h
      have h2 : ((ds.length : ℚ)) < 2 * ((ds.count 1 : ℚ)) := by exact_mod_cast h
      linarith
  constructor
  · constructor
    · intro h1
      by_cases hc : (1 : ℚ)/2 < natMean ds
      · exact key.mp hc
      · rw [aggregate, if_neg hc] at h1
        exact absurd h1 (by norm_num)
    · intro h2
      rw [aggregate, if_pos (key.mpr h2)]
  · intro heq
    rw [aggregate, if_neg]
    rw [key]
    omega

theorem c3_witness :
    aggregate [1, 0, 1] = 1 ∧ aggregate [1, 0, 1, 0] = 0 := by
  constructor
  · exact (c3_clip_aggregation [1, 0, 1] (by simp) (by simp)).1.mpr (by simp)
  · exact (c3_clip_aggregation [1, 0, 1, 0] (by simp) (by simp)).2 (by simp)

/-- C4: when the clip yields fewer frames than the smoothing window's fill
requirement `N` (the case in which the running-decision sequence would be
empty), the clip-level prediction fails instead of returning a label: the
failure arises from the unconditional window-filling indexing inside
`predict_probability` and propagates through `predict_output` before the
inline aggregation runs. -/
theorem c4_short_clip_no_label (probs : List ℚ) (h : probs.length < N) :
    predict_output probs = none := by
  rw [predict_output, predict_probability, if_pos h]
  rfl

theorem c4_witness : predict_output [] = none :=
  c4_short_clip_no_label [] (by norm_num [N])

/-- C9: whenever the per-clip feature list yields `M ≥ N` scores,
`predict_probability` succeeds with a decision list of length exactly
`M - N + 1` whose every element is `0` or `1`. -/
theorem c9_decision_list_shape (probs : List ℚ) (h : N ≤ probs.length) :
    ∃ ds, predict_probability probs = some ds
      ∧ ds.length = probs.length - N + 1
      ∧ ∀ d ∈ ds, d = 0 ∨ d = 1 := by
  refine ⟨emLabel (listMean (probs.take N)) :: slideLoop (probs.take N) (probs.drop N),
    ?_, ?_, ?_⟩
  · rw [predict_probability, if_neg (by omega)]
  · rw [List.length_cons, slideLoop_length, List.length_drop]
  · intro d hd
    rcases List.mem_cons.mp hd with h0 | h0
    · subst h0
      exact emLabel_cases _
    · exact slideLoop_mem _ _ _ h0

theorem c9_witness :
    ∃ ds, predict_probability (List.replicate 10 (9/10 : ℚ)) = some ds
      ∧ ds.length = 1 ∧ ∀ d ∈ ds, d = 0 ∨ d = 1 := by
  obtain ⟨ds, h1, h2, h3⟩ :=
    c9_decision_list_shape (List.replicate 10 (9/10 : ℚ)) (by simp [N])
  exact ⟨ds, h1, by simpa [N] using h2, h3⟩

/-- C10: with fewer than `N` per-clip frames, `predict_probability` fails
(the unconditional indexing of the first `N` frames is out of bounds,
modelled as `none`) instead of completing; in particular it never returns an
empty decision list on any input. -/
theorem c10_short_input_fails :
    (∀ probs : List ℚ, probs.length < N → predict_probability probs = none)
    ∧ (∀ probs : List ℚ, predict_probability probs ≠ some []) := by
  constructor
  · intro probs h
    rw [predict_probability, if_pos h]
  · intro probs hcontra
    rw [predict_probability] at hcontra
    by_cases h : probs.length < N
    · rw [if_pos h] at hcontra
      exact Option.noConfusion hcontra
    · rw [if_neg h] at hcontra
      simp at hcontra

theorem c10_witness : predict_probability [(9/10 : ℚ)] = none :=
  c10_short_input_fails.1 _ (by norm_num [N])

/-- C7 counterexample: on the script `[0.9] * 10 ++ [0.1] * 10` the running
decisions are `[1, 1, 1, 1, 1, 0, 0, 0, 0, 0, 0]`: the first non-siren
decision is the sixth one (index `5`, emitted at the fifteenth push overall),
not the eleventh, and at that push the window still contains five `0.9`
entries — so the transition does not happen at the first push whose window
holds no `0.9` entry, refuting the claimed transition point. -/
theorem c7_counterexample :
    predict_probability c7input = some [1, 1, 1, 1, 1, 0, 0, 0, 0, 0, 0]
    ∧ ([1, 1, 1, 1, 1, 0, 0, 0, 0, 0, 0] : List ℕ).getD 5 1 = 0
    ∧ (smootherRun (c7input.take 15)).1
        = List.replicate 5 (9/10 : ℚ) ++ List.replicate 5 (1/10 : ℚ) := by
  refine ⟨?_, by rfl, ?_⟩
  · norm_num [predict_probability, c7input, N, listMean, emLabel, th, slideLoop,
      List.replicate]
  · rw [smootherRun_split _ (by norm_num [c7input, N])]
    norm_num [c7input, N, slideWindow, List.replicate, List.take, List.drop]

/-- C7 amended: on the script `[0.9] * 10 ++ [0.1] * 10` with `N = 10` and
`th = 0.5`, the running decisions are five sirens followed by six non-sirens;
the transition to non-siren happens exactly at the fifteenth push (the sixth
decision), the first push at which the window mean no longer strictly
exceeds `th` — the window then holds five `0.9` and five `0.1` entries, so
its mean is exactly `th` and the tie-break classifies it as non-siren. -/
theorem c7_amended_transition :
    predict_probability c7input = some (List.replicate 5 1 ++ List.replicate 6 0)
    ∧ listMean ((smootherRun (c7input.take 15)).1) = th := by
  constructor
  · norm_num [predict_probability, c7input, N, listMean, emLabel, th, slideLoop,
      List.replicate]
  · rw [smootherRun_split _ (by norm_num [c7input, N])]
    norm_num [c7input, N, th, listMean, slideWindow, List.replicate, List.take,
      List.drop]

/-- C6 counterexample: on the empty sample sequence the envelope extraction
does not return a sequence at all — the analytic-signal transform fails
there (scipy raises `ValueError`, the spec's `EmptySignal`) — so the claim,
quantified over every input sequence, fails at the empty input. -/
theorem c6_counterexample : preprocess [(1 : ℝ)] [1] [] = none := by
  rfl

/-- C6 amended: for every non-empty input sample sequence and every designed
filter coefficient pair, the envelope extraction succeeds and returns a
sequence of the same length as its input in which every value is
non-negative; the empty input fails with the `EmptySignal` error instead of
returning a sequence. -/
theorem c6_envelope_shape (b a y : List ℝ) (hy : y ≠ []) :
    ∃ env, preprocess b a y = some env
      ∧ env.length = y.length
      ∧ ∀ i : ℕ, 0 ≤ env.getD i 0 := by
  have hlen : (butter_bandpass_filter b a y).length = y.length := by
    rw [butter_bandpass_filter, lfilter, lfilterAux_length]
  have hne : ¬ (butter_bandpass_filter b a y).length = 0 := by
    rw [hlen]
    intro h0
    exact hy (List.length_eq_zero.mp h0)
  rw [preprocess, hilbert, if_neg hne, Option.map_some']
  refine ⟨_, rfl, ?_, ?_⟩
  · rw [List.length_map, List.length_map, List.length_range, hlen]
  · intro i
    exact abs_map_getD_nonneg _ i

theorem c6_witness :
    ∃ env, preprocess [(1 : ℝ)] [1] [0] = some env
      ∧ env.length = 1 ∧ ∀ i : ℕ, 0 ≤ env.getD i 0 := by
  obtain ⟨env, h1, h2, h3⟩ := c6_envelope_shape [(1 : ℝ)] [1] [0] (by simp)
  exact ⟨env, h1, by simpa using h2, h3⟩

/-- C8: for every envelope of `L` samples framed with frame length `F` and
hop `H` (with `H` positive), the framing stage yields exactly
`(L - F) / H + 1` frames when `L ≥ F` (Nat division is the floor), the
trailing partial frame being dropped, and fails with `ClipTooShort` when
`L < F`. -/
theorem c8_framing_count (env : List ℝ) (F H : ℕ) (hH : 1 ≤ H) :
    (F ≤ env.length →
      ∃ fs, frameClip env F H = Except.ok fs
        ∧ fs.length = (env.length - F) / H + 1)
    ∧ (env.length < F → frameClip env F H = Except.error PipelineError.ClipTooShort) := by
  constructor
  · intro hF
    refine ⟨stFrames env F H, ?_, ?_⟩
    · rw [frameClip, if_neg (by omega)]
    · rw [stFrames, frameLoop_length env F H hH (env.length + 1) 0 (by omega) (by omega)]
      rw [Nat.sub_zero]
  · intro hF
    rw [frameClip, if_pos hF]

theorem c8_witness :
    ∃ fs, frameClip (List.replicate 9 (0 : ℝ)) 4 2 = Except.ok fs ∧ fs.length = 3 := by
  obtain ⟨fs, h1, h2⟩ :=
    (c8_framing_count (List.replicate 9 (0 : ℝ)) 4 2 (by norm_num)).1 (by simp)
  refine ⟨fs, h1, ?_⟩
  rw [h2]
  norm_num

end EmDetection
